import Mathlib

/-!
Verification of the `query` package: a lazy, composable query engine over
in-memory sequences (Go repository `dmundt/query`, file `query.go`).

The embedding denotes a `Query` by the finite list of elements a fresh
iterator instance yields when drained.  Each operator of `query.go` is
translated to a Lean function on lists that follows the corresponding Go
loop or iterator state machine; the element type `T = interface{}` becomes
a type parameter, and Go's `nil` absent-value sentinel becomes `none` in
an `Option` result.  Fallible code (a comparator access that can panic)
returns `Option`.
-/

namespace Query

/-- Translation of `take` (query.go:444-453): the returned iterator checks
`n <= 0` on every pull and otherwise decrements `n` and pulls upstream.
`n` is a Go `int`, modelled as `Int`. -/
def take {α : Type _} (a : List α) (n : Int) : List α :=
  if n ≤ 0 then []
  else
    match a with
    | [] => []
    | x :: xs => x :: take xs (n - 1)

/-- Translation of `skip` (query.go:338-352): the iterator returns nothing
when `n < 0`, otherwise discards up to `n` upstream elements once and then
forwards the remainder. -/
def skip {α : Type _} (a : List α) (n : Int) : List α :=
  if n < 0 then []
  else if n > 0 then
    match a with
    | [] => []
    | _ :: xs => skip xs (n - 1)
  else a

/-- Translation of `where` (query.go:482-496): an element is emitted when
every predicate in `f` accepts it (`has := true; has = has && f[k](elem)`).
`where` is a Lean keyword, hence the name `whereQ`. -/
def whereQ {α : Type _} (a : List α) (f : List (α → Bool)) : List α :=
  match a with
  | [] => []
  | x :: xs => if f.all (fun p => p x) then x :: whereQ xs f else whereQ xs f

/-- Translation of `expand` (query.go:122-145): the iterator pulls an outer
element, computes its expansion `f(outer)`, yields the expansion in order,
and repeats until upstream is exhausted. -/
def expand {α β : Type _} (a : List α) (f : α → List β) : List β :=
  match a with
  | [] => []
  | x :: xs => f x ++ expand xs f

/-- Translation of `mapTo` (query.go:288-297): applies `f` to each upstream
element in order. -/
def mapTo {α β : Type _} (a : List α) (f : α → β) : List β :=
  a.map f

/-- Loop of `Query.At` (query.go:56-65) after the sign check: `elem, _ =
next()` is executed `i+1` times and the last `elem` is returned; once the
iterator is exhausted `elem` is the `nil` zero value, i.e. `none`. -/
def atLoop {α : Type _} : List α → Nat → Option α
  | [], _ => none
  | x :: _, 0 => some x
  | _ :: xs, i + 1 => atLoop xs i

/-- Translation of `Query.At` (query.go:56-65): returns `nil` (`none`) for a
negative index, otherwise runs the pull loop. -/
def At {α : Type _} (a : List α) (i : Int) : Option α :=
  if i < 0 then none else atLoop a i.toNat

/-- Translation of `Query.First` (query.go:148-152): one pull; `nil`
(`none`) when the sequence is empty. -/
def First {α : Type _} (a : List α) : Option α :=
  match a with
  | [] => none
  | x :: _ => some x

/-- Translation of `Query.Last` (query.go:261-267): drains the iterator,
keeping the most recent element; `nil` (`none`) when empty. -/
def Last {α : Type _} : List α → Option α
  | [] => none
  | [x] => some x
  | _ :: x :: xs => Last (x :: xs)

/-- Translation of `Query.Reduce` (query.go:312-321): `nil` (`none`) on an
empty sequence, otherwise folds the tail onto the first element. -/
def Reduce {α : Type _} (a : List α) (f : α → α → α) : Option α :=
  match a with
  | [] => none
  | x :: xs => some (xs.foldl f x)

/-- One step of `result[key] = append(result[key], elem)` (query.go:221) on
the lookup table, modelled as an association list from key to group: the
element is appended to the group of its key, a new key opening a fresh
singleton group. -/
def lutAppend {α κ : Type _} [DecidableEq κ] :
    List (κ × List α) → κ → α → List (κ × List α)
  | [], k, e => [(k, [e])]
  | (k', g) :: rest, k, e =>
      if k' = k then (k', g ++ [e]) :: rest else (k', g) :: lutAppend rest k e

/-- Translation of `makeLut` (query.go:215-224): drains the inner iterator,
grouping elements by `f` while keeping insertion order inside each group. -/
def makeLut {α κ : Type _} [DecidableEq κ] (it : List α) (f : α → κ) :
    List (κ × List α) :=
  it.foldl (fun r e => lutAppend r (f e) e) []

/-- Lookup `lut[key]` (query.go:249) in the association-list model; `none`
plays the role of the Go comma-ok `has = false`. -/
def lutLookup {α κ : Type _} [DecidableEq κ] :
    List (κ × List α) → κ → Option (List α)
  | [], _ => none
  | (k', g) :: rest, k => if k' = k then some g else lutLookup rest k

/-- Loop of `join` (query.go:241-257) with the lookup table already built:
outer elements whose key is absent are skipped, a present group is emitted
mapped through `resultSel` before the next outer element is pulled. -/
def joinLoop {α β γ κ : Type _} [DecidableEq κ] (t : List (κ × List β))
    (outKeySel : α → κ) (resultSel : α → β → γ) : List α → List γ
  | [] => []
  | o :: os =>
      match lutLookup t (outKeySel o) with
      | none => joinLoop t outKeySel resultSel os
      | some g => g.map (resultSel o) ++ joinLoop t outKeySel resultSel os

/-- Translation of `join` (query.go:233-258): builds the lookup table from
the inner sequence keyed by `innKeySel`, then drives the outer sequence
through it. -/
def join {α β γ κ : Type _} [DecidableEq κ] (outer : List α) (inner : List β)
    (outKeySel : α → κ) (innKeySel : β → κ) (resultSel : α → β → γ) :
    List γ :=
  joinLoop (makeLut inner innKeySel) outKeySel resultSel outer

/-- Translation of `sorter.Less` (query.go:408-426): all but the last
comparator are tried in both directions; on a tie the next one decides; the
last comparator is returned directly.  With an empty comparator chain the
Go code reads `s.less[0]` out of range (a panic), modelled as `none`. -/
def sorterLess {α : Type _} (fs : List (α → α → Bool)) (x y : α) :
    Option Bool :=
  match fs with
  | [] => none
  | [f] => some (f x y)
  | f :: rest =>
      if f x y then some true
      else if f y x then some false
      else sorterLess rest x y

/-- Pure value of `sorterLess` for a non-empty chain (the composite strict
comparison the sorter orders by). -/
def chainLess {α : Type _} (fs : List (α → α → Bool)) (x y : α) : Bool :=
  (sorterLess fs x y).getD false

/-- Stable insertion of `a` in front of the first element `b` of the sorted
buffer with `Less b a = false`; a `Less` failure (empty chain) aborts.  This
together with `stableSortM` models the contract of `sort.Stable`
(query.go:388): a stable sort by `Less`, panicking exactly when `Less` is
called on an out-of-range comparator chain — `sort.Stable` first calls
`Less` iff the buffer has at least two elements, and so does this model. -/
def orderedInsertM {α : Type _} (less : α → α → Option Bool) (a : α) :
    List α → Option (List α)
  | [] => some [a]
  | b :: l =>
      match less b a with
      | none => none
      | some true =>
          match orderedInsertM less a l with
          | none => none
          | some l' => some (b :: l')
      | some false => some (a :: b :: l)

/-- Contract model of `sort.Stable` (query.go:388) over the drained buffer:
stable insertion sort by `less`, propagating a `less` failure. -/
def stableSortM {α : Type _} (less : α → α → Option Bool) :
    List α → Option (List α)
  | [] => some []
  | a :: l =>
      match stableSortM less l with
      | none => none
      | some l' => orderedInsertM less a l'

/-- Translation of `sortBy` (query.go:364-377) with `by.Sort`
(query.go:383-389): the query is drained to a buffer (`ToSlice`), which in
this embedding is the denotation list itself, and stably sorted with the
composite `sorter.Less`. -/
def sortBy {α : Type _} (a : List α) (f : List (α → α → Bool)) :
    Option (List α) :=
  stableSortM (sorterLess f) a

/-- One pull of the iterator closure built by `from` (query.go:183-193):
the captured state is the cursor `i`; `ok = i < len(a)`, and on success the
element `a[i]` is produced and the cursor advanced.  The slice `a` itself is
never written, so it appears as a plain parameter. -/
def fromNext {α : Type _} (a : List α) (i : Nat) : Option α × Nat :=
  if h : i < a.length then (some (a.get ⟨i, h⟩), i + 1) else (none, i)

/-- The factory stored by `From` (query.go:176-181): each invocation of
`Iterate` runs `from(a)` afresh, creating a new closure whose cursor starts
at `0`. -/
def fromIterate {α : Type _} (_ : List α) : Nat :=
  0

/-- Draining an iterator instance of the `from` machine: pull until `ok` is
false, collecting the elements; `fuel` bounds the number of pulls so the
drain is total. -/
def drainFrom {α : Type _} (a : List α) : Nat → Nat → List α
  | 0, _ => []
  | fuel + 1, i =>
      match fromNext a i with
      | (none, _) => []
      | (some x, i') => x :: drainFrom a fuel i'

/-- For a non-negative count, `take` agrees with the list prefix. -/
theorem take_eq_list_take {α : Type _} (a : List α) (n : Int) (hn : 0 ≤ n) :
    take a n = a.take n.toNat := by
  induction a generalizing n with
  | nil =>
    rw [take]
    split <;> simp
  | cons x xs ih =>
    by_cases h0 : n ≤ 0
    · have hz : n = 0 := le_antisymm h0 hn
      subst hz
      rw [take]
      simp
    · have h1 : 0 ≤ n - 1 := by omega
      have h2 : n.toNat = (n - 1).toNat + 1 := by omega
      rw [take, if_neg h0, h2]
      simp only [List.take_succ_cons]
      rw [ih (n - 1) h1]

/-- For a non-negative count, `skip` agrees with the list suffix. -/
theorem skip_eq_list_drop {α : Type _} (a : List α) (n : Int) (hn : 0 ≤ n) :
    skip a n = a.drop n.toNat := by
  induction a generalizing n with
  | nil =>
    rw [skip]
    split <;> simp
  | cons x xs ih =>
    by_cases hpos : n > 0
    · have h1 : 0 ≤ n - 1 := by omega
      have h2 : n.toNat = (n - 1).toNat + 1 := by omega
      have hneg : ¬ n < 0 := by omega
      rw [skip, if_neg hneg, if_pos hpos, h2]
      simp only [List.drop_succ_cons]
      exact ih (n - 1) h1
    · have hz : n = 0 := by omega
      subst hz
      rw [skip]
      simp

/-- C3 counterexample: for the negative count `-1` on the one-element
sequence `[0]`, `Take` and `Skip` are both empty, so their concatenation
does not restore the sequence. -/
theorem take_skip_not_partition_on_neg :
    ¬ (take ([0] : List Nat) (-1) ++ skip ([0] : List Nat) (-1) = [0]) := by
  decide

/-- C3 (amended): for every non-negative `n`, `Take(s, n)` followed by
`Skip(s, n)` partitions `s` into a prefix of length `min(n, |s|)` and the
remainder; for negative `n` both `Take(s, n)` and `Skip(s, n)` are empty. -/
theorem take_skip_partition {α : Type _} (a : List α) (n : Int) :
    (0 ≤ n → take a n ++ skip a n = a ∧
      (take a n).length = min n.toNat a.length) ∧
    (n < 0 → take a n = [] ∧ skip a n = []) := by
  constructor
  · intro hn
    rw [take_eq_list_take a n hn, skip_eq_list_drop a n hn]
    exact ⟨List.take_append_drop _ a, List.length_take _ a⟩
  · intro hn
    have h1 : take a n = [] := by
      have : n ≤ 0 := le_of_lt hn
      cases a <;> simp [take, this]
    have h2 : skip a n = [] := by
      cases a <;> simp [skip, hn]
    exact ⟨h1, h2⟩

/-- C3 witness: the partition at `s = [0, 1, 2]` with `n = 2`, and the
empty halves at `n = -1`. -/
theorem take_skip_partition_witness :
    (take ([0, 1, 2] : List Nat) 2 ++ skip ([0, 1, 2] : List Nat) 2 =
        [0, 1, 2] ∧
      (take ([0, 1, 2] : List Nat) 2).length = min (Int.toNat 2) 3) ∧
    (take ([0, 1, 2] : List Nat) (-1) = [] ∧
      skip ([0, 1, 2] : List Nat) (-1) = []) :=
  ⟨(take_skip_partition [0, 1, 2] 2).1 (by decide),
    (take_skip_partition [0, 1, 2] (-1)).2 (by decide)⟩

/-- C7: `Skip` with a negative count and `Take` with a non-positive count
both denote the empty sequence. -/
theorem skip_take_nonpositive {α : Type _} (a : List α) (n : Int) :
    (n < 0 → skip a n = []) ∧ (n ≤ 0 → take a n = []) := by
  constructor
  · intro hn
    cases a <;> simp [skip, hn]
  · intro hn
    cases a <;> simp [take, hn]

/-- C7 witness: `Skip([0, 1], -1)` and `Take([0, 1], -1)` are empty. -/
theorem skip_take_nonpositive_witness :
    skip ([0, 1] : List Nat) (-1) = [] ∧ take ([0, 1] : List Nat) (-1) = [] :=
  ⟨(skip_take_nonpositive [0, 1] (-1)).1 (by decide),
    (skip_take_nonpositive [0, 1] (-1)).2 (by decide)⟩

/-- The `where` loop is the filter by the conjunction of all predicates. -/
theorem whereQ_eq_filter {α : Type _} (a : List α) (f : List (α → Bool)) :
    whereQ a f = a.filter (fun x => f.all (fun p => p x)) := by
  induction a with
  | nil => rfl
  | cons x xs ih =>
    by_cases hx : f.all (fun p => p x)
    · simp [whereQ, hx, List.filter_cons, ih]
    · simp only [whereQ, hx, if_false, List.filter_cons]
      simp [hx, ih]

/-- C4: `Where` emits a sub-multiset of its input in the original relative
order; every emitted element satisfies all predicates; every element
failing some predicate is absent; an empty predicate list is the identity. -/
theorem where_spec {α : Type _} (a : List α) (f : List (α → Bool)) :
    List.Sublist (whereQ a f) a ∧
    (∀ x ∈ whereQ a f, ∀ p ∈ f, p x = true) ∧
    (∀ x : α, (∃ p ∈ f, p x = false) → x ∉ whereQ a f) ∧
    (f = [] → whereQ a f = a) := by
  refine ⟨?_, ?_, ?_, ?_⟩
  · rw [whereQ_eq_filter]
    exact List.filter_sublist a
  · intro x hx p hp
    rw [whereQ_eq_filter] at hx
    have := (List.mem_filter.mp hx).2
    rw [List.all_eq_true] at this
    exact this p hp
  · rintro x ⟨p, hp, hpx⟩ hx
    rw [whereQ_eq_filter] at hx
    have := (List.mem_filter.mp hx).2
    rw [List.all_eq_true] at this
    rw [this p hp] at hpx
    exact Bool.noConfusion hpx
  · intro hf
    subst hf
    rw [whereQ_eq_filter]
    simp

/-- C4 witness: `Where([1..5], [x > 3])` is a sub-multiset of the input,
`2` is filtered out, and the empty predicate list is the identity. -/
theorem where_spec_witness :
    List.Sublist (whereQ ([1, 2, 3, 4, 5] : List Nat) [fun x => decide (3 < x)])
        [1, 2, 3, 4, 5] ∧
    (2 : Nat) ∉ whereQ ([1, 2, 3, 4, 5] : List Nat)
        [fun x => decide (3 < x)] ∧
    whereQ ([1, 2, 3] : List Nat) [] = [1, 2, 3] :=
  ⟨(where_spec [1, 2, 3, 4, 5] [fun x => decide (3 < x)]).1,
    (where_spec [1, 2, 3, 4, 5] [fun x => decide (3 < x)]).2.2.1 2
      ⟨fun x => decide (3 < x), List.mem_singleton.mpr rfl, by decide⟩,
    (where_spec [1, 2, 3] []).2.2.2 rfl⟩

/-- C6: the elements of `Expand` are the concatenation, in upstream order,
of each element's expansion, and expanding with the singleton function is
the identity. -/
theorem expand_spec {α β : Type _} (a : List α) (f : α → List β) :
    expand a f = (a.map f).flatten ∧ expand a (fun x => [x]) = a := by
  constructor
  · induction a with
    | nil => rfl
    | cons x xs ih => simp [expand, ih]
  · induction a with
    | nil => rfl
    | cons x xs ih => simp [expand, ih]

/-- Past-the-end pull loop: once the index reaches the length, every
element slot is the exhausted iterator's `nil`. -/
theorem atLoop_eq_none {α : Type _} (a : List α) (i : Nat)
    (h : a.length ≤ i) : atLoop a i = none := by
  induction a generalizing i with
  | nil => cases i <;> rfl
  | cons x xs ih =>
    cases i with
    | zero => simp at h
    | succ j => exact ih j (by simpa using h)

/-- C8: `At` on a negative or past-the-end index, and `First`, `Last`,
`Reduce` on an empty sequence, return the absent-value sentinel `none` and
are total. -/
theorem terminal_sentinels {α : Type _} (a : List α) (i : Int)
    (f : α → α → α) :
    (i < 0 → At a i = none) ∧
    ((a.length : Int) ≤ i → At a i = none) ∧
    First ([] : List α) = none ∧
    Last ([] : List α) = none ∧
    Reduce ([] : List α) f = none := by
  refine ⟨?_, ?_, rfl, rfl, rfl⟩
  · intro hi
    simp [At, hi]
  · intro hi
    have h0 : ¬ i < 0 := by
      have : (0 : Int) ≤ a.length := Int.ofNat_nonneg _
      omega
    have hlen : a.length ≤ i.toNat := by omega
    simp [At, h0, atLoop_eq_none a i.toNat hlen]

/-- C8 witness: out-of-range `At` on `[5, 6]` and the empty-sequence
terminal queries all return `none`. -/
theorem terminal_sentinels_witness :
    At ([5, 6] : List Nat) (-1) = none ∧
    At ([5, 6] : List Nat) 7 = none ∧
    First ([] : List Nat) = none ∧
    Last ([] : List Nat) = none ∧
    Reduce ([] : List Nat) Nat.add = none :=
  ⟨(terminal_sentinels [5, 6] (-1) Nat.add).1 (by decide),
    (terminal_sentinels [5, 6] 7 Nat.add).2.1 (by decide),
    (terminal_sentinels [5, 6] 7 Nat.add).2.2.1,
    (terminal_sentinels [5, 6] 7 Nat.add).2.2.2.1,
    (terminal_sentinels [5, 6] 7 Nat.add).2.2.2.2⟩

/-- C10: `At(q, 0)` coincides with `First(q)`, including the `none`
sentinel on an empty sequence. -/
theorem at_zero_eq_first {α : Type _} (a : List α) : At a 0 = First a := by
  cases a <;> rfl

/-- Appending an element under key `k'` extends that key's group and leaves
every other group unchanged (groups read through `lutLookup`, defaulting to
the empty group for an absent key). -/
theorem lutLookup_lutAppend {α κ : Type _} [DecidableEq κ]
    (t : List (κ × List α)) (k' k : κ) (e : α) :
    (lutLookup (lutAppend t k' e) k).getD [] =
      if k' = k then (lutLookup t k).getD [] ++ [e]
      else (lutLookup t k).getD [] := by
  induction t with
  | nil =>
    by_cases h : k' = k <;> simp [lutAppend, lutLookup, h]
  | cons p rest ih =>
    obtain ⟨k0, g0⟩ := p
    by_cases h0 : k0 = k'
    · subst h0
      by_cases h : k0 = k <;> simp [lutAppend, lutLookup, h]
    · by_cases h : k0 = k
      · subst h
        have hk : ¬ k' = k0 := fun hc => h0 hc.symm
        simp [lutAppend, lutLookup, h0, hk]
      · simp [lutAppend, lutLookup, h0, h, ih]

/-- Folding the `makeLut` loop over `it` appends, group by group, exactly
the elements whose key is `k` to whatever table it started from. -/
theorem lutLookup_foldl {α κ : Type _} [DecidableEq κ] (f : α → κ)
    (it : List α) (t : List (κ × List α)) (k : κ) :
    (lutLookup (it.foldl (fun r e => lutAppend r (f e) e) t) k).getD [] =
      (lutLookup t k).getD [] ++ it.filter (fun e => decide (f e = k)) := by
  induction it generalizing t with
  | nil => simp
  | cons e it ih =>
    rw [List.foldl_cons, ih, lutLookup_lutAppend]
    by_cases h : f e = k
    · simp [List.filter_cons, h]
    · simp [List.filter_cons, h]

/-- The lookup table groups the inner sequence by key: the group stored
under `k` is the ordered sublist of inner elements whose key is `k`. -/
theorem makeLut_group {α κ : Type _} [DecidableEq κ] (it : List α)
    (f : α → κ) (k : κ) :
    (lutLookup (makeLut it f) k).getD [] =
      it.filter (fun e => decide (f e = k)) := by
  rw [makeLut, lutLookup_foldl]
  simp [lutLookup]

/-- The join loop concatenates, outer element by outer element, the looked
up group mapped through the combiner. -/
theorem joinLoop_eq {α β γ κ : Type _} [DecidableEq κ] (t : List (κ × List β))
    (outKeySel : α → κ) (resultSel : α → β → γ) (os : List α) :
    joinLoop t outKeySel resultSel os =
      (os.map (fun o =>
        ((lutLookup t (outKeySel o)).getD []).map (resultSel o))).flatten := by
  induction os with
  | nil => rfl
  | cons o os ih =>
    rw [joinLoop]
    cases h : lutLookup t (outKeySel o) with
    | none => simp [h, ih]
    | some g => simp [h, ih]

/-- C1: `Join` emits, in outer order, one row `combine(o, i)` per element
`i` of the inner group matching `o` in that group's insertion order, so its
length is the sum over outer elements of the matching group sizes and an
unmatched outer element contributes zero rows. -/
theorem join_spec {α β γ κ : Type _} [DecidableEq κ] (outer : List α)
    (inner : List β) (outKeySel : α → κ) (innKeySel : β → κ)
    (resultSel : α → β → γ) :
    join outer inner outKeySel innKeySel resultSel =
      (outer.map (fun o =>
        (inner.filter (fun i => decide (innKeySel i = outKeySel o))).map
          (resultSel o))).flatten ∧
    (join outer inner outKeySel innKeySel resultSel).length =
      (outer.map (fun o =>
        (inner.filter
          (fun i => decide (innKeySel i = outKeySel o))).length)).sum := by
  have heq : join outer inner outKeySel innKeySel resultSel =
      (outer.map (fun o =>
        (inner.filter (fun i => decide (innKeySel i = outKeySel o))).map
          (resultSel o))).flatten := by
    rw [join, joinLoop_eq]
    simp only [makeLut_group]
  refine ⟨heq, ?_⟩
  rw [heq, List.length_flatten]
  simp [Function.comp_def]

/-- Draining the `from` iterator machine from cursor `i` with enough fuel
yields exactly the remaining elements of the source slice. -/
theorem drainFrom_eq_drop {α : Type _} (a : List α) (fuel i : Nat)
    (h : a.length - i ≤ fuel) : drainFrom a fuel i = a.drop i := by
  induction fuel generalizing i with
  | zero =>
    have hi : a.length ≤ i := by omega
    rw [drainFrom, List.drop_eq_nil_iff.mpr hi]
  | succ fuel ih =>
    rw [drainFrom, fromNext]
    by_cases hi : i < a.length
    · rw [dif_pos hi]
      have hfuel : a.length - (i + 1) ≤ fuel := by omega
      show a.get ⟨i, hi⟩ :: drainFrom a fuel (i + 1) = List.drop i a
      rw [ih (i + 1) hfuel]
      exact (List.drop_eq_getElem_cons hi).symm
    · rw [dif_neg hi]
      have : a.length ≤ i := by omega
      rw [List.drop_eq_nil_iff.mpr this]

/-- C9: two drains of fresh iterator instances produced by the factory of
`From` both replay the source slice, so re-iteration is deterministic and
element-for-element identical; the step function reads but never writes the
source, which the model reflects by threading only the cursor as state. -/
theorem from_reiteration {α : Type _} (a : List α) (fuel1 fuel2 : Nat)
    (h1 : a.length ≤ fuel1) (h2 : a.length ≤ fuel2) :
    drainFrom a fuel1 (fromIterate a) = a ∧
    drainFrom a fuel2 (fromIterate a) = a ∧
    drainFrom a fuel1 (fromIterate a) = drainFrom a fuel2 (fromIterate a) := by
  have e1 : drainFrom a fuel1 (fromIterate a) = a := by
    rw [fromIterate, drainFrom_eq_drop a fuel1 0 (by omega), List.drop_zero]
  have e2 : drainFrom a fuel2 (fromIterate a) = a := by
    rw [fromIterate, drainFrom_eq_drop a fuel2 0 (by omega), List.drop_zero]
  exact ⟨e1, e2, e1.trans e2.symm⟩

/-- With an empty comparator chain every call of `sorter.Less` reads the
comparator slice out of range, so stably sorting a buffer of two or more
elements aborts. -/
theorem stableSortM_empty_chain_none {α : Type _} (x y : α) (l : List α) :
    stableSortM (sorterLess ([] : List (α → α → Bool))) (x :: y :: l) =
      none := by
  induction l generalizing x y with
  | nil => rfl
  | cons z t ih =>
    rw [stableSortM, ih y z]

/-- C2 counterexample: `Sort` with an empty comparator list on the
two-element sequence `[0, 1]` does not return the sequence unchanged — the
comparator access `s.less[0]` is out of range, modelled as `none`. -/
theorem sortBy_empty_chain_not_noop :
    ¬ (sortBy ([0, 1] : List Nat) [] = some [0, 1]) := by
  decide

/-- C2 (amended): `Sort` with an empty comparator list returns sequences of
fewer than two elements unchanged; on two or more elements `sorter.Less`
reads `s.less[0]` out of range (`sort.Stable` calls `Less` exactly then),
so the sort aborts instead of preserving the order. -/
theorem sortBy_empty_chain {α : Type _} (a : List α) :
    (a.length ≤ 1 → sortBy a [] = some a) ∧
    (2 ≤ a.length → sortBy a [] = none) := by
  constructor
  · intro hlen
    match a with
    | [] => rfl
    | [x] => rfl
    | x :: y :: t => simp at hlen
  · intro hlen
    match a with
    | [] => simp at hlen
    | [x] => simp at hlen
    | x :: y :: t => exact stableSortM_empty_chain_none x y t

/-- C2 witness: the singleton `[0]` is returned unchanged and the pair
`[0, 1]` aborts. -/
theorem sortBy_empty_chain_witness :
    sortBy ([0] : List Nat) [] = some [0] ∧
    sortBy ([0, 1] : List Nat) [] = none :=
  ⟨(sortBy_empty_chain [0]).1 (by decide),
    (sortBy_empty_chain [0, 1]).2 (by decide)⟩

/-- Unfolding of `sorter.Less` on a chain of at least two comparators: the
head comparator is tried in both directions before deferring. -/
theorem sorterLess_cons_cons {α : Type _} (f g : α → α → Bool)
    (t : List (α → α → Bool)) (x y : α) :
    sorterLess (f :: g :: t) x y =
      if f x y then some true
      else if f y x then some false
      else sorterLess (g :: t) x y :=
  rfl

/-- On a non-empty chain `sorter.Less` always produces a verdict, the pure
composite comparison `chainLess`. -/
theorem sorterLess_some {α : Type _} (fs : List (α → α → Bool))
    (hne : fs ≠ []) (x y : α) :
    sorterLess fs x y = some (chainLess fs x y) := by
  induction fs with
  | nil => exact absurd rfl hne
  | cons f rest ih =>
    cases rest with
    | nil => rfl
    | cons g t =>
      rw [chainLess, sorterLess_cons_cons]
      by_cases h1 : f x y
      · simp [h1]
      · by_cases h2 : f y x
        · simp [h1, h2]
        · rw [if_neg h1, if_neg h2, ih (List.cons_ne_nil g t)]
          rfl

/-- Inserting through the fallible `sorter.Less` of a non-empty chain
agrees with the pure ordered insertion for the reflexive closure of the
composite comparison. -/
theorem orderedInsertM_eq {α : Type _} (fs : List (α → α → Bool))
    (hne : fs ≠ []) (x : α) (l : List α) :
    orderedInsertM (sorterLess fs) x l =
      some (List.orderedInsert (fun u v => chainLess fs v u = false) x l) := by
  induction l with
  | nil => rfl
  | cons b l ih =>
    rw [orderedInsertM, sorterLess_some fs hne b x]
    cases hbx : chainLess fs b x with
    | true => simp [List.orderedInsert, hbx, ih]
    | false => simp [List.orderedInsert, hbx]

/-- With a non-empty comparator chain the fallible stable sort succeeds and
computes the stable insertion sort for the reflexive closure of the
composite comparison. -/
theorem stableSortM_eq {α : Type _} (fs : List (α → α → Bool))
    (hne : fs ≠ []) (a : List α) :
    stableSortM (sorterLess fs) a =
      some (List.insertionSort (fun u v => chainLess fs v u = false) a) := by
  induction a with
  | nil => rfl
  | cons x l ih =>
    rw [stableSortM, ih, List.insertionSort]
    exact orderedInsertM_eq fs hne x _

/-- When two elements tie in both directions under every comparator before
the last, the composite verdict is the last comparator's verdict. -/
theorem sorterLess_append_ties {α : Type _} (gs : List (α → α → Bool))
    (lc : α → α → Bool) (x y : α)
    (hties : ∀ g ∈ gs, g x y = false ∧ g y x = false) :
    sorterLess (gs ++ [lc]) x y = some (lc x y) := by
  induction gs with
  | nil => rfl
  | cons g gs ih =>
    have hg := hties g (List.mem_cons_self g gs)
    have hrest : ∀ g' ∈ gs, g' x y = false ∧ g' y x = false :=
      fun g' hmem => hties g' (List.mem_cons_of_mem g hmem)
    cases hgs : gs ++ [lc] with
    | nil => exact absurd hgs (by simp)
    | cons p t =>
      rw [List.cons_append, hgs, sorterLess_cons_cons, hg.1, hg.2]
      rw [← hgs, ih hrest]
      simp

/-- C5: for a non-empty comparator chain whose composite order is total and
transitive, `Sort` orders two elements that tie under every comparator
except the last solely by the last comparator, and keeps the original
relative order of two elements that tie under every comparator including
the last in both directions. -/
theorem sort_stable {α : Type _} [DecidableEq α]
    (gs : List (α → α → Bool)) (lc : α → α → Bool) (a out : List α)
    (htot : ∀ u v : α, chainLess (gs ++ [lc]) v u = false ∨
      chainLess (gs ++ [lc]) u v = false)
    (htrans : ∀ u v w : α, chainLess (gs ++ [lc]) v u = false →
      chainLess (gs ++ [lc]) w v = false →
      chainLess (gs ++ [lc]) w u = false)
    (hout : sortBy a (gs ++ [lc]) = some out)
    (x y : α) (hties : ∀ g ∈ gs, g x y = false ∧ g y x = false) :
    (lc x y = true → x ∈ a → y ∈ a → x ≠ y →
      out.indexOf x < out.indexOf y) ∧
    (lc x y = false → lc y x = false → List.Sublist [x, y] a →
      List.Sublist [x, y] out) := by
  have hne : gs ++ [lc] ≠ [] := by simp
  rw [sortBy, stableSortM_eq (gs ++ [lc]) hne a] at hout
  have hout' : List.insertionSort
      (fun u v => chainLess (gs ++ [lc]) v u = false) a = out :=
    Option.some_inj.mp hout
  constructor
  · intro hxy hxa hya hxney
    haveI : IsTotal α (fun u v => chainLess (gs ++ [lc]) v u = false) :=
      ⟨fun u v => htot u v⟩
    haveI : IsTrans α (fun u v => chainLess (gs ++ [lc]) v u = false) :=
      ⟨fun u v w huv hvw => htrans u v w huv hvw⟩
    have hsorted := List.sorted_insertionSort
      (fun u v => chainLess (gs ++ [lc]) v u = false) a
    rw [hout'] at hsorted
    have hchain : chainLess (gs ++ [lc]) x y = true := by
      rw [chainLess, sorterLess_append_ties gs lc x y hties]
      exact hxy
    have hxout : x ∈ out := by
      rw [← hout']
      exact (List.mem_insertionSort _).mpr hxa
    have hyout : y ∈ out := by
      rw [← hout']
      exact (List.mem_insertionSort _).mpr hya
    have hxlt : out.indexOf x < out.length := List.indexOf_lt_length.mpr hxout
    have hylt : out.indexOf y < out.length := List.indexOf_lt_length.mpr hyout
    by_contra hcon
    push_neg at hcon
    have hidx : out.indexOf y ≠ out.indexOf x := by
      intro heq
      apply hxney
      have hx1 : out.get ⟨out.indexOf x, hxlt⟩ = x := by
        simp [List.getElem_indexOf]
      have hy1 : out.get ⟨out.indexOf y, hylt⟩ = y := by
        simp [List.getElem_indexOf]
      rw [← hx1, ← hy1]
      congr 1
      exact Fin.ext heq.symm
    have hyx : out.indexOf y < out.indexOf x := lt_of_le_of_ne hcon hidx
    have hrel := hsorted.rel_get_of_lt
      (show (⟨out.indexOf y, hylt⟩ : Fin out.length) <
        ⟨out.indexOf x, hxlt⟩ from hyx)
    have hx1 : out.get ⟨out.indexOf x, hxlt⟩ = x := by
      simp [List.getElem_indexOf]
    have hy1 : out.get ⟨out.indexOf y, hylt⟩ = y := by
      simp [List.getElem_indexOf]
    rw [hx1, hy1] at hrel
    rw [hchain] at hrel
    exact Bool.noConfusion hrel
  · intro hxy hyx hsub
    have hchain : chainLess (gs ++ [lc]) y x = false := by
      rw [chainLess, sorterLess_append_ties gs lc y x
        (fun g hg => ⟨(hties g hg).2, (hties g hg).1⟩)]
      exact hyx
    rw [← hout']
    exact List.pair_sublist_insertionSort hchain hsub

/-- C5 witness: over `Fin 2` with an everywhere-tying first comparator
followed by the numeric strict order, sorting `[1, 0, 0]` gives
`[0, 0, 1]`: the last comparator places `0` before `1`, and the fully tied
duplicate pair keeps its original relative order. -/
theorem sort_stable_witness :
    ([0, 0, 1] : List (Fin 2)).indexOf 0 <
        ([0, 0, 1] : List (Fin 2)).indexOf 1 ∧
    List.Sublist [(0 : Fin 2), 0] [0, 0, 1] :=
  ⟨(sort_stable [fun _ _ : Fin 2 => false]
      (fun u v : Fin 2 => decide ((u : Nat) < (v : Nat)))
      [1, 0, 0] [0, 0, 1] (by decide) (by decide) (by decide)
      0 1 (by decide)).1 (by decide) (by decide) (by decide) (by decide),
    (sort_stable [fun _ _ : Fin 2 => false]
      (fun u v : Fin 2 => decide ((u : Nat) < (v : Nat)))
      [1, 0, 0] [0, 0, 1] (by decide) (by decide) (by decide)
      0 0 (by decide)).2 (by decide) (by decide) (by decide)⟩

/-- C9 witness: draining two fresh instances over `[1, 2, 3]` with fuels
`3` and `5` gives the source both times. -/
theorem from_reiteration_witness :
    drainFrom ([1, 2, 3] : List Nat) 3 (fromIterate [1, 2, 3]) = [1, 2, 3] ∧
    drainFrom ([1, 2, 3] : List Nat) 5 (fromIterate [1, 2, 3]) = [1, 2, 3] ∧
    drainFrom ([1, 2, 3] : List Nat) 3 (fromIterate [1, 2, 3]) =
      drainFrom ([1, 2, 3] : List Nat) 5 (fromIterate [1, 2, 3]) :=
  from_reiteration [1, 2, 3] 3 5 (by decide) (by decide)

end Query
